import Mathlib

/-!
Shallow embedding of `docktail.py`: a concurrent Docker log tailer.
The embedding covers the identity assigner (`assign_style`), the tail
worker's per-poll state machine (`LogWorker.step`), the source matcher
(`find_matching_containers`) and the worker supervisor's reconciliation
(`ensure_workers_for_matches`), each translated from the Python source.
-/

namespace Docktail

/-- The fixed color palette, copied verbatim from the `STYLES` list. -/
def STYLES : List String :=
  [ "bold cyan", "bold magenta", "bold green", "bold yellow", "bold blue",
    "bold red", "cyan", "magenta", "green", "yellow", "blue", "red",
    "bright_cyan", "bright_magenta", "bright_green", "bright_yellow",
    "bright_blue", "bright_red" ]

/-- Embeds `hashed_index`: the SHA-256 digest of the name, as a number, reduced
modulo the palette length.  The hash itself is an opaque pure function of
the name, so the embedding takes it as a parameter `h : String → Nat`. -/
def hashed_index (h : String → Nat) (name : String) : Nat :=
  h name % STYLES.length

/-- The body of `assign_style`'s `for off in range(len(STYLES))` loop,
recursing over the list of offsets still to try: the first candidate
`STYLES[(start + off) % len(STYLES)]` not in `used` is returned. -/
def scan_offsets (start : Nat) (used : Finset String) : List Nat → Option String
  | [] => none
  | off :: rest =>
    let candidate := STYLES[(start + off) % STYLES.length]!
    if candidate ∉ used then some candidate else scan_offsets start used rest

/-- Embeds `assign_style(name, used_styles)`: start from the hashed index, scan the
palette circularly for a style not in use; if all are in use, reuse the
hashed one. -/
def assign_style (h : String → Nat) (name : String) (used : Finset String) : String :=
  let start := hashed_index h name
  match scan_offsets start used (List.range STYLES.length) with
  | some candidate => candidate
  | none => STYLES[start]!

theorem styles_length : STYLES.length = 18 := rfl

theorem styles_nodup : STYLES.Nodup := by decide

theorem scan_offsets_none_iff (start : Nat) (used : Finset String) (offs : List Nat) :
    scan_offsets start used offs = none ↔
      ∀ off ∈ offs, STYLES[(start + off) % STYLES.length]! ∈ used := by
  induction offs with
  | nil => simp [scan_offsets]
  | cons off rest ih =>
    simp only [scan_offsets]
    by_cases hmem : STYLES[(start + off) % STYLES.length]! ∈ used
    · simp [hmem, ih]
    · simp [hmem]

theorem scan_range'_some (start : Nat) (used : Finset String) :
    ∀ (n i : Nat) (s : String), scan_offsets start used (List.range' i n) = some s →
      s ∉ used ∧ ∃ k, i ≤ k ∧ k < i + n ∧ s = STYLES[(start + k) % STYLES.length]! ∧
        ∀ j, i ≤ j → j < k → STYLES[(start + j) % STYLES.length]! ∈ used := by
  intro n
  induction n with
  | zero => intro i s hs; simp [List.range', scan_offsets] at hs
  | succ n ih =>
    intro i s hs
    rw [List.range'_succ] at hs
    simp only [scan_offsets] at hs
    by_cases hmem : STYLES[(start + i) % STYLES.length]! ∈ used
    · rw [if_neg (by simpa using hmem)] at hs
      obtain ⟨hnot, k, hik, hkn, hk, hmin⟩ := ih (i + 1) s hs
      refine ⟨hnot, k, by omega, by omega, hk, fun j hj1 hj2 => ?_⟩
      rcases Nat.eq_or_lt_of_le hj1 with hji | hji
      · rw [← hji]; exact hmem
      · exact hmin j hji hj2
    · rw [if_pos hmem] at hs
      obtain rfl : STYLES[(start + i) % STYLES.length]! = s := Option.some.inj hs
      exact ⟨hmem, i, le_refl i, by omega, rfl, fun j hj1 hj2 => by omega⟩

theorem assign_scan_some_of_card_lt (start : Nat) (used : Finset String)
    (hcard : used.card < STYLES.length) :
    ∃ s, scan_offsets start used (List.range STYLES.length) = some s := by
  cases hscan : scan_offsets start used (List.range STYLES.length) with
  | some s => exact ⟨s, rfl⟩
  | none =>
    exfalso
    rw [scan_offsets_none_iff] at hscan
    have hsub : (Finset.range STYLES.length).image
        (fun k => STYLES[(start + k) % STYLES.length]!) ⊆ used := by
      intro s hs
      simp only [Finset.mem_image, Finset.mem_range] at hs
      obtain ⟨k, hk, rfl⟩ := hs
      exact hscan k (List.mem_range.mpr hk)
    have hinj : Set.InjOn (fun k => STYLES[(start + k) % STYLES.length]!)
        ↑(Finset.range STYLES.length) := by
      intro a ha b hb hab
      simp only [Finset.coe_range, Set.mem_Iio] at ha hb
      have hlen : STYLES.length = 18 := rfl
      have hpos : 0 < STYLES.length := by omega
      have ha' : (start + a) % STYLES.length < STYLES.length := Nat.mod_lt _ hpos
      have hb' : (start + b) % STYLES.length < STYLES.length := Nat.mod_lt _ hpos
      simp only at hab
      rw [getElem!_pos STYLES ((start + a) % STYLES.length) ha',
        getElem!_pos STYLES ((start + b) % STYLES.length) hb'] at hab
      have hidx := (styles_nodup.getElem_inj_iff).mp hab
      rw [hlen] at ha' hb' hidx ha hb
      omega
    have hle := Finset.card_le_card hsub
    rw [Finset.card_image_of_injOn hinj, Finset.card_range] at hle
    omega

theorem assign_style_eq_of_scan (h : String → Nat) (name : String) (used : Finset String)
    (s : String)
    (hs : scan_offsets (hashed_index h name) used (List.range STYLES.length) = some s) :
    assign_style h name used = s := by
  unfold assign_style
  simp only [hs]

theorem assign_style_not_mem (h : String → Nat) (name : String) (used : Finset String)
    (hcard : used.card < STYLES.length) :
    assign_style h name used ∉ used := by
  obtain ⟨s, hs⟩ := assign_scan_some_of_card_lt (hashed_index h name) used hcard
  rw [assign_style_eq_of_scan h name used s hs]
  rw [List.range_eq_range'] at hs
  exact (scan_range'_some _ used _ 0 s hs).1

/-- A concrete stand-in for the SHA-256 based hash, used to instantiate the
hash-parametric theorems on concrete inputs. -/
def h0 : String → Nat := fun _ => 0

/-- A set of 18 strings (one palette style plus 17 strings from outside the
palette): its cardinality equals the palette length, yet it does not contain
the whole palette. -/
def spoofUsed : Finset String :=
  {"bold cyan", "s1", "s2", "s3", "s4", "s5", "s6", "s7", "s8", "s9",
   "s10", "s11", "s12", "s13", "s14", "s15", "s16", "s17"}

/-- Claim C2: for every name and every `usedStyles` set with
`|usedStyles| < |palette|`, `assign_style` returns the first style — scanning
the palette circularly from the hashed index `h(name) mod |palette|` — that is
not in `usedStyles`; in particular the returned style is not in `usedStyles`. -/
theorem assign_style_first_free (h : String → Nat) (name : String) (used : Finset String)
    (hcard : used.card < STYLES.length) :
    assign_style h name used ∉ used ∧
      ∃ k < STYLES.length,
        assign_style h name used = STYLES[(hashed_index h name + k) % STYLES.length]! ∧
        ∀ j < k, STYLES[(hashed_index h name + j) % STYLES.length]! ∈ used := by
  obtain ⟨s, hs⟩ := assign_scan_some_of_card_lt (hashed_index h name) used hcard
  have heq := assign_style_eq_of_scan h name used s hs
  rw [List.range_eq_range'] at hs
  obtain ⟨hnot, k, h0k, hkn, hk, hmin⟩ := scan_range'_some _ used _ 0 s hs
  rw [heq]
  exact ⟨hnot, k, by omega, hk, fun j hj => hmin j (Nat.zero_le j) hj⟩

/-- Witness for C2 at a concrete input: name `"web"` with one style in use. -/
theorem assign_style_first_free_witness :
    assign_style h0 "web" {"bold cyan"} ∉ ({"bold cyan"} : Finset String) ∧
      ∃ k < STYLES.length,
        assign_style h0 "web" {"bold cyan"} =
          STYLES[(hashed_index h0 "web" + k) % STYLES.length]! ∧
        ∀ j < k, STYLES[(hashed_index h0 "web" + j) % STYLES.length]! ∈
          ({"bold cyan"} : Finset String) :=
  assign_style_first_free h0 "web" {"bold cyan"} (by decide)

/-- Claim C3 (counterexample): a used set whose cardinality equals the palette
length but which is not the palette itself — `assign_style` then returns a
free palette style, not the hashed starting style. -/
theorem assign_style_full_card_cex :
    spoofUsed.card = STYLES.length ∧
      assign_style h0 "web" spoofUsed ≠ STYLES[hashed_index h0 "web"]! := by decide

/-- Claim C3 (amended): if `usedStyles` consists of palette styles only and
`|usedStyles| = |palette|` (so every palette style is in use), `assign_style`
returns the hashed starting style, and it does so totally (no error). -/
theorem assign_style_exhausted (h : String → Nat) (name : String) (used : Finset String)
    (hsub : used ⊆ STYLES.toFinset) (hcard : used.card = STYLES.length) :
    assign_style h name used = STYLES[hashed_index h name]! := by
  have htf : STYLES.toFinset.card = STYLES.length :=
    List.toFinset_card_of_nodup styles_nodup
  have hused : used = STYLES.toFinset :=
    Finset.eq_of_subset_of_card_le hsub (by omega)
  have hnone : scan_offsets (hashed_index h name) used (List.range STYLES.length) = none := by
    rw [scan_offsets_none_iff]
    intro off hoff
    have hlt : (hashed_index h name + off) % STYLES.length < STYLES.length :=
      Nat.mod_lt _ (by rw [styles_length]; omega)
    rw [hused, List.mem_toFinset, getElem!_pos STYLES _ hlt]
    exact List.getElem_mem hlt
  unfold assign_style
  simp only [hnone]

/-- Witness for the amended C3: the full palette as the used set. -/
theorem assign_style_exhausted_witness :
    assign_style h0 "web" STYLES.toFinset = STYLES[hashed_index h0 "web"]! :=
  assign_style_exhausted h0 "web" STYLES.toFinset (by decide) (by decide)

/-- What one iteration of `LogWorker.run`'s polling loop observes from the
runtime: the container lookup raises NotFound, the lookup raises some other
exception, the status reload raises, or the lookup and reload succeed and the
observed status is `running` or not. -/
inductive PollObs where
  | notFound
  | lookupError
  | reloadError
  | status (running : Bool)
deriving DecidableEq, Repr

/-- One iteration of `LogWorker.run`'s `while` loop, translated from the
source: the worker state is the `_attached_running` flag, and the result pairs
the updated flag with the banner prefixes ("+" / "-") printed during the
iteration.  NotFound with the flag set prints "-" and clears the flag; a
generic lookup or reload exception only sleeps; a non-running status with the
flag set prints "-" and clears it; a running status with the flag clear prints
"+" and sets it (the subsequent log-stream read prints no banner). -/
def LogWorker.step (attached : Bool) : PollObs → Bool × List String
  | .notFound => if attached then (false, ["-"]) else (false, [])
  | .lookupError => (attached, [])
  | .reloadError => (attached, [])
  | .status running =>
    if running then
      if attached then (true, []) else (true, ["+"])
    else
      if attached then (false, ["-"]) else (false, [])

/-- Iterate `LogWorker.step` over a list of per-poll observations, returning
the final flag and the banner output of each poll in order. -/
def LogWorker.runPolls (attached : Bool) : List PollObs → Bool × List (List String)
  | [] => (attached, [])
  | o :: os =>
    let s := LogWorker.step attached o
    let r := LogWorker.runPolls s.1 os
    (r.1, s.2 :: r.2)

theorem runPolls_append (attached : Bool) (xs ys : List PollObs) :
    LogWorker.runPolls attached (xs ++ ys) =
      ((LogWorker.runPolls (LogWorker.runPolls attached xs).1 ys).1,
       (LogWorker.runPolls attached xs).2 ++
         (LogWorker.runPolls (LogWorker.runPolls attached xs).1 ys).2) := by
  induction xs generalizing attached with
  | nil => simp [LogWorker.runPolls]
  | cons o os ih => simp [LogWorker.runPolls, ih]

theorem runPolls_not_running_from_detached (k : Nat) :
    LogWorker.runPolls false (List.replicate k (PollObs.status false)) =
      (false, List.replicate k []) := by
  induction k with
  | zero => rfl
  | succ k ih =>
    simp [List.replicate_succ, LogWorker.runPolls, LogWorker.step, ih]

theorem runPolls_running_from_attached (k : Nat) :
    LogWorker.runPolls true (List.replicate k (PollObs.status true)) =
      (true, List.replicate k []) := by
  induction k with
  | zero => rfl
  | succ k ih =>
    simp [List.replicate_succ, LogWorker.runPolls, LogWorker.step, ih]

/-- Claim C1: a worker observing non-running, then running, then non-running
over successive polls (`STOPPED→ATTACHED→STOPPED`) emits exactly one "+"
banner, at the poll of the running-transition, and exactly one "-" banner, at
the poll of the non-running-transition, and no banner on any other poll of
the sequence. -/
theorem worker_banner_once (k₁ k₂ k₃ : Nat) (hk : 1 ≤ k₁) (h2 : 1 ≤ k₂) (h3 : 1 ≤ k₃) :
    (LogWorker.runPolls false
        (List.replicate k₁ (PollObs.status false) ++
         List.replicate k₂ (PollObs.status true) ++
         List.replicate k₃ (PollObs.status false))).2 =
      List.replicate k₁ [] ++
        (["+"] :: List.replicate (k₂ - 1) []) ++
        (["-"] :: List.replicate (k₃ - 1) []) := by
  obtain ⟨k₂', rfl⟩ : ∃ m, k₂ = m + 1 := ⟨k₂ - 1, by omega⟩
  obtain ⟨k₃', rfl⟩ : ∃ m, k₃ = m + 1 := ⟨k₃ - 1, by omega⟩
  have hA := runPolls_not_running_from_detached k₁
  have hB : LogWorker.runPolls false (List.replicate (k₂' + 1) (PollObs.status true)) =
      (true, ["+"] :: List.replicate k₂' []) := by
    simp [List.replicate_succ, LogWorker.runPolls, LogWorker.step,
      runPolls_running_from_attached]
  have hC : LogWorker.runPolls true (List.replicate (k₃' + 1) (PollObs.status false)) =
      (false, ["-"] :: List.replicate k₃' []) := by
    simp [List.replicate_succ, LogWorker.runPolls, LogWorker.step,
      runPolls_not_running_from_detached]
  simp [runPolls_append, hA, hB, hC]

/-- Witness for C1: two polls in each phase. -/
theorem worker_banner_once_witness :
    (LogWorker.runPolls false
        (List.replicate 2 (PollObs.status false) ++
         List.replicate 2 (PollObs.status true) ++
         List.replicate 2 (PollObs.status false))).2 =
      List.replicate 2 [] ++
        (["+"] :: List.replicate (2 - 1) []) ++
        (["-"] :: List.replicate (2 - 1) []) :=
  worker_banner_once 2 2 2 (by decide) (by decide) (by decide)

/-- Claim C4 (counterexample): on a transient (non-NotFound) lookup error, a
previously attached worker keeps the attached flag set and prints nothing —
it does not emit the "-" banner and does not clear the flag that the claim
requires on "any transient lookup error". -/
theorem worker_lookup_error_cex :
    LogWorker.step true PollObs.lookupError = (true, []) ∧
      LogWorker.step true PollObs.lookupError ≠ (false, ["-"]) := by decide

/-- Claim C4 (amended): on a NotFound lookup failure the worker ends the poll
detached, emitting a "-" banner exactly when it was previously attached; on a
transient (non-NotFound) lookup error it leaves the attached flag unchanged
and emits no banner; in both cases the loop sleeps the poll interval and
retries. -/
theorem worker_search_retry (attached : Bool) :
    LogWorker.step attached PollObs.notFound =
      (false, if attached then ["-"] else []) ∧
    LogWorker.step attached PollObs.lookupError = (attached, []) := by
  cases attached <;> decide

/-- One tracked worker, as the supervisor sees it: name, assigned style, and
whether its thread is alive (`is_alive()`). -/
structure Worker where
  container_name : String
  style : String
  alive : Bool
deriving DecidableEq, Repr

/-- Lookup in the `active_workers` dict (`active_workers[name]`). -/
def mapLookup (m : List (String × Worker)) (k : String) : Option Worker :=
  match m with
  | [] => none
  | (k', w) :: rest => if k' = k then some w else mapLookup rest k

/-- Assignment into the `active_workers` dict (`active_workers[name] = w`):
replaces the entry for `k` in place, or appends a new one. -/
def mapInsert (m : List (String × Worker)) (k : String) (w : Worker) :
    List (String × Worker) :=
  match m with
  | [] => [(k, w)]
  | (k', w') :: rest =>
    if k' = k then (k, w) :: rest else (k', w') :: mapInsert rest k w

/-- Whether the map holds an alive worker under `name`. -/
def has_alive_worker (m : List (String × Worker)) (name : String) : Bool :=
  match mapLookup m name with
  | some w => w.alive
  | none => false

/-- The exact-mode reconciliation guard of the main loop, from
`if exact and not active_workers:`—in exact mode the supervisor re-runs
reconciliation exactly when the worker dict is empty. -/
def should_reconcile_exact (m : List (String × Worker)) : Bool :=
  m.isEmpty

/-- Embeds `{w.style for w in active_workers.values() if w.is_alive()}`: the styles
currently in use by alive workers. -/
def used_styles_of (m : List (String × Worker)) : Finset String :=
  ((m.filter fun p => p.2.alive).map fun p => p.2.style).toFinset

/-- Embeds `name not in active_workers or not active_workers[name].is_alive()`: the
guard under which `ensure_workers_for_matches` starts a worker. -/
def needs_worker (m : List (String × Worker)) (name : String) : Bool :=
  match mapLookup m name with
  | none => true
  | some w => !w.alive

/-- The `for c in matches:` loop of `ensure_workers_for_matches`: for each
matched name lacking an alive worker, assign a style from the running used
set, add it to the used set, start a worker (alive) and register it; the
second component accumulates the workers started by this pass. -/
def ensure_loop (h : String → Nat) (matchedNames : List String) (used : Finset String)
    (m : List (String × Worker)) (started : List Worker) :
    List (String × Worker) × List Worker :=
  match matchedNames with
  | [] => (m, started)
  | name :: rest =>
    if needs_worker m name then
      let style := assign_style h name used
      let w : Worker := { container_name := name, style := style, alive := true }
      ensure_loop h rest (insert style used) (mapInsert m name w) (started ++ [w])
    else
      ensure_loop h rest used m started

/-- Embeds `ensure_workers_for_matches`: compute the used-style set from the alive
workers, then run the reconciliation loop over the matched names.  Returns
the updated worker map and the list of newly started workers. -/
def ensure_workers_for_matches (h : String → Nat) (matchedNames : List String)
    (m : List (String × Worker)) : List (String × Worker) × List Worker :=
  ensure_loop h matchedNames (used_styles_of m) m []

/-- A worker record for the container "api" whose thread has terminated. -/
def deadApiWorker : Worker :=
  { container_name := "api", style := "bold cyan", alive := false }

/-- A worker record for the container "api" whose thread is alive. -/
def aliveApiWorker : Worker :=
  { container_name := "api", style := "bold cyan", alive := true }

/-- Claim C5 (counterexample): with a single dead worker record for the target
name in the map, there is no alive worker for the name, yet the exact-mode
guard (`if exact and not active_workers`) does not fire because the dict is
non-empty — so "reconciles iff no alive worker for the target name" is false
at this state. -/
theorem exact_reconcile_cex :
    ¬ (should_reconcile_exact [("api", deadApiWorker)] = true ↔
        has_alive_worker [("api", deadApiWorker)] "api" = false) := by decide

/-- Claim C5 (amended): in exact mode the main loop invokes reconciliation in
an iteration iff the worker map is empty at that iteration; in particular a
worker record whose task has terminated does prevent reconciliation from
running. -/
theorem exact_reconcile_iff_empty (m : List (String × Worker)) :
    should_reconcile_exact m = true ↔ m = [] := by
  cases m <;> simp [should_reconcile_exact]

theorem mapLookup_mapInsert (m : List (String × Worker)) (k k' : String) (w : Worker) :
    mapLookup (mapInsert m k w) k' = if k = k' then some w else mapLookup m k' := by
  induction m with
  | nil => simp [mapInsert, mapLookup]
  | cons p rest ih =>
    obtain ⟨k₀, w₀⟩ := p
    by_cases h0 : k₀ = k <;> by_cases h1 : k = k' <;>
      simp_all [mapInsert, mapLookup]

theorem needs_worker_eq_false_of_alive (m : List (String × Worker)) (name : String)
    (ha : has_alive_worker m name = true) : needs_worker m name = false := by
  unfold has_alive_worker at ha
  unfold needs_worker
  cases hl : mapLookup m name with
  | none => rw [hl] at ha; exact absurd ha (by simp)
  | some w =>
    rw [hl] at ha
    have ha' : w.alive = true := ha
    simp [ha']

theorem has_alive_worker_of_needs_false (m : List (String × Worker)) (name : String)
    (hn : needs_worker m name = false) : has_alive_worker m name = true := by
  unfold needs_worker at hn
  unfold has_alive_worker
  cases hl : mapLookup m name with
  | none => rw [hl] at hn; exact absurd hn (by simp)
  | some w => rw [hl] at hn; simpa using hn

theorem ensure_loop_preserves_alive (h : String → Nat) (names : List String)
    (name : String) :
    ∀ (used : Finset String) (m : List (String × Worker)) (started : List Worker),
      has_alive_worker m name = true →
      has_alive_worker (ensure_loop h names used m started).1 name = true := by
  induction names with
  | nil => intro used m started ha; simpa [ensure_loop]
  | cons n rest ih =>
    intro used m started ha
    simp only [ensure_loop]
    by_cases hn : needs_worker m n = true
    · rw [if_pos hn]
      have hne : n ≠ name := by
        intro hEq
        rw [hEq] at hn
        rw [needs_worker_eq_false_of_alive m name ha] at hn
        exact absurd hn (by simp)
      apply ih
      unfold has_alive_worker
      rw [mapLookup_mapInsert, if_neg hne]
      exact ha
    · rw [if_neg hn]
      exact ih used m started ha

theorem ensure_loop_alive_of_mem (h : String → Nat) :
    ∀ (names : List String) (name : String), name ∈ names →
      ∀ (used : Finset String) (m : List (String × Worker)) (started : List Worker),
        has_alive_worker (ensure_loop h names used m started).1 name = true := by
  intro names
  induction names with
  | nil => intro name hmem; exact absurd hmem (by simp)
  | cons n rest ih =>
    intro name hmem used m started
    simp only [ensure_loop]
    by_cases hn : needs_worker m n = true
    · rw [if_pos hn]
      rcases List.mem_cons.mp hmem with hEq | hmem'
      · subst hEq
        apply ensure_loop_preserves_alive
        unfold has_alive_worker
        rw [mapLookup_mapInsert, if_pos rfl]
      · exact ih name hmem' _ _ _
    · rw [if_neg hn]
      rcases List.mem_cons.mp hmem with hEq | hmem'
      · subst hEq
        apply ensure_loop_preserves_alive
        exact has_alive_worker_of_needs_false m name (by simpa using hn)
      · exact ih name hmem' _ _ _

theorem ensure_loop_noop (h : String → Nat) :
    ∀ (names : List String) (used : Finset String) (m : List (String × Worker))
      (started : List Worker),
      (∀ name ∈ names, has_alive_worker m name = true) →
      ensure_loop h names used m started = (m, started) := by
  intro names
  induction names with
  | nil => intro used m started _; rfl
  | cons n rest ih =>
    intro used m started hall
    simp only [ensure_loop]
    rw [if_neg]
    · exact ih used m started fun name hmem => hall name (List.mem_cons_of_mem n hmem)
    · rw [needs_worker_eq_false_of_alive m n (hall n (List.mem_cons_self n rest))]
      simp

/-- Claim C6: reconciliation is idempotent — running
`ensure_workers_for_matches` a second time with the same match set returns the
worker map produced by the first run unchanged and starts no worker (so the
second pass also triggers no banner: banners originate only from freshly
started workers). -/
theorem ensure_workers_idempotent (h : String → Nat) (matchedNames : List String)
    (m : List (String × Worker)) :
    ensure_workers_for_matches h matchedNames
        (ensure_workers_for_matches h matchedNames m).1 =
      ((ensure_workers_for_matches h matchedNames m).1, []) := by
  apply ensure_loop_noop
  intro name hname
  exact ensure_loop_alive_of_mem h matchedNames name hname _ _ _

theorem ensure_loop_preserves_entry (h : String → Nat) (names : List String)
    (name : String) (w : Worker) (halive : w.alive = true) :
    ∀ (used : Finset String) (m : List (String × Worker)) (started : List Worker),
      mapLookup m name = some w →
      mapLookup (ensure_loop h names used m started).1 name = some w := by
  induction names with
  | nil => intro used m started hl; simpa [ensure_loop]
  | cons n rest ih =>
    intro used m started hl
    simp only [ensure_loop]
    by_cases hn : needs_worker m n = true
    · rw [if_pos hn]
      have hne : n ≠ name := by
        intro hEq
        subst hEq
        unfold needs_worker at hn
        rw [hl] at hn
        simp [halive] at hn
      apply ih
      rw [mapLookup_mapInsert, if_neg hne]
      exact hl
    · rw [if_neg hn]; exact ih used m started hl

theorem ensure_loop_keeps_entry (h : String → Nat) (names : List String) (name : String) :
    ∀ (used : Finset String) (m : List (String × Worker)) (started : List Worker),
      (mapLookup m name).isSome = true →
      (mapLookup (ensure_loop h names used m started).1 name).isSome = true := by
  induction names with
  | nil => intro used m started hl; simpa [ensure_loop]
  | cons n rest ih =>
    intro used m started hl
    simp only [ensure_loop]
    by_cases hn : needs_worker m n = true
    · rw [if_pos hn]
      apply ih
      rw [mapLookup_mapInsert]
      by_cases hEq : n = name
      · simp [hEq]
      · rw [if_neg hEq]; exact hl
    · rw [if_neg hn]; exact ih used m started hl

theorem ensure_loop_dead_entry_old (h : String → Nat) (names : List String)
    (name : String) (w' : Worker) (hdead : w'.alive = false) :
    ∀ (used : Finset String) (m : List (String × Worker)) (started : List Worker),
      mapLookup (ensure_loop h names used m started).1 name = some w' →
      mapLookup m name = some w' := by
  induction names with
  | nil => intro used m started hl; simpa [ensure_loop] using hl
  | cons n rest ih =>
    intro used m started hl
    simp only [ensure_loop] at hl
    by_cases hn : needs_worker m n = true
    · rw [if_pos hn] at hl
      have hl' := ih _ _ _ hl
      rw [mapLookup_mapInsert] at hl'
      by_cases hEq : n = name
      · rw [if_pos hEq] at hl'
        cases Option.some.inj hl'
        simp at hdead
      · rw [if_neg hEq] at hl'; exact hl'
    · rw [if_neg hn] at hl; exact ih _ _ _ hl

/-- Claim C9: reconciliation is additive-only.  For every name already in the
worker map: if its worker is alive, its entry (worker record with its style
and task) is unchanged by the pass; the pass never removes the entry (also
for names that disappeared from the match set, which are simply absent from
`matchedNames`); and any dead record found afterwards at such a name is the
untouched old record — the pass stops no worker. -/
theorem ensure_workers_additive (h : String → Nat) (matchedNames : List String)
    (m : List (String × Worker)) (name : String) (w w' : Worker)
    (hlook : mapLookup m name = some w) :
    (w.alive = true →
      mapLookup (ensure_workers_for_matches h matchedNames m).1 name = some w) ∧
    ((mapLookup (ensure_workers_for_matches h matchedNames m).1 name).isSome = true) ∧
    (mapLookup (ensure_workers_for_matches h matchedNames m).1 name = some w' →
      w'.alive = false → mapLookup m name = some w') :=
  ⟨fun halive => ensure_loop_preserves_entry h matchedNames name w halive _ _ _ hlook,
    ensure_loop_keeps_entry h matchedNames name _ _ _ (by simp [hlook]),
    fun hl' hdead => ensure_loop_dead_entry_old h matchedNames name w' hdead _ _ _ hl'⟩

/-- Witness for C9: a map holding an alive worker for "api" while the match
set has moved on to "db". -/
theorem ensure_workers_additive_witness :
    (aliveApiWorker.alive = true →
      mapLookup (ensure_workers_for_matches h0 ["db"] [("api", aliveApiWorker)]).1 "api" =
        some aliveApiWorker) ∧
    ((mapLookup (ensure_workers_for_matches h0 ["db"]
        [("api", aliveApiWorker)]).1 "api").isSome = true) ∧
    (mapLookup (ensure_workers_for_matches h0 ["db"]
          [("api", aliveApiWorker)]).1 "api" = some deadApiWorker →
      deadApiWorker.alive = false →
      mapLookup [("api", aliveApiWorker)] "api" = some deadApiWorker) :=
  ensure_workers_additive h0 ["db"] [("api", aliveApiWorker)] "api"
    aliveApiWorker deadApiWorker (by decide)

theorem ensure_loop_started_append (h : String → Nat) :
    ∀ (names : List String) (used : Finset String) (m : List (String × Worker))
      (started : List Worker),
      ensure_loop h names used m started =
        ((ensure_loop h names used m []).1,
          started ++ (ensure_loop h names used m []).2) := by
  intro names
  induction names with
  | nil => intro used m started; simp [ensure_loop]
  | cons n rest ih =>
    intro used m started
    simp only [ensure_loop]
    by_cases hn : needs_worker m n = true
    · rw [if_pos hn, if_pos hn]
      rw [ih _ _ (started ++ [_]), ih _ _ ([] ++ [_])]
      simp
    · rw [if_neg hn, if_neg hn]
      exact ih _ _ _

theorem ensure_loop_styles_fresh (h : String → Nat) :
    ∀ (names : List String) (used : Finset String) (m : List (String × Worker)),
      used.card + (ensure_loop h names used m []).2.length ≤ STYLES.length →
      ((ensure_loop h names used m []).2.map (fun w => w.style)).Nodup ∧
        ∀ w ∈ (ensure_loop h names used m []).2, w.style ∉ used := by
  intro names
  induction names with
  | nil => intro used m _; simp [ensure_loop]
  | cons n rest ih =>
    intro used m hcard
    by_cases hn : needs_worker m n = true
    · have hunf : ensure_loop h (n :: rest) used m [] =
          ((ensure_loop h rest (insert (assign_style h n used) used)
              (mapInsert m n ⟨n, assign_style h n used, true⟩) []).1,
            ⟨n, assign_style h n used, true⟩ ::
              (ensure_loop h rest (insert (assign_style h n used) used)
                (mapInsert m n ⟨n, assign_style h n used, true⟩) []).2) := by
        simp only [ensure_loop, if_pos hn]
        rw [ensure_loop_started_append h rest]
        simp
      rw [hunf] at hcard ⊢
      simp only [List.length_cons] at hcard
      have hins : (insert (assign_style h n used) used).card ≤ used.card + 1 :=
        Finset.card_insert_le _ _
      have hElements := ih (insert (assign_style h n used) used)
        (mapInsert m n ⟨n, assign_style h n used, true⟩) (by omega)
      have hfree : assign_style h n used ∉ used :=
        assign_style_not_mem h n used (by omega)
      obtain ⟨hnodup, hmemb⟩ := hElements
      constructor
      · simp only [List.map_cons, List.nodup_cons]
        refine ⟨?_, hnodup⟩
        intro hmem
        obtain ⟨w, hw, hws⟩ := List.mem_map.mp hmem
        have := hmemb w hw
        rw [hws] at this
        exact this (Finset.mem_insert_self _ _)
      · intro w hw
        rcases List.mem_cons.mp hw with hEq | hmem'
        · rw [hEq]; exact hfree
        · intro hmem
          exact hmemb w hmem' (Finset.mem_insert_of_mem hmem)
    · have hunf : ensure_loop h (n :: rest) used m [] = ensure_loop h rest used m [] := by
        simp only [ensure_loop, if_neg hn]
      rw [hunf] at hcard ⊢
      exact ih used m hcard

/-- Claim C7: in one reconciliation pass, every style assigned to a newly
started worker is distinct from the styles held by the alive workers at the
start of the pass and from the styles assigned to the other workers started
in the same pass, as long as a palette style remains unused at each
assignment — guaranteed here by the alive styles plus the number of workers
the pass starts not exceeding the palette size. -/
theorem ensure_workers_styles_distinct (h : String → Nat) (matchedNames : List String)
    (m : List (String × Worker))
    (hcard : (used_styles_of m).card +
        (ensure_workers_for_matches h matchedNames m).2.length ≤ STYLES.length) :
    ((ensure_workers_for_matches h matchedNames m).2.map (fun w => w.style)).Nodup ∧
      ∀ w ∈ (ensure_workers_for_matches h matchedNames m).2,
        w.style ∉ used_styles_of m :=
  ensure_loop_styles_fresh h matchedNames (used_styles_of m) m hcard

/-- Witness for C7: an empty worker map and two matched names. -/
theorem ensure_workers_styles_distinct_witness :
    ((ensure_workers_for_matches h0 ["api", "db"] []).2.map (fun w => w.style)).Nodup ∧
      ∀ w ∈ (ensure_workers_for_matches h0 ["api", "db"] []).2,
        w.style ∉ used_styles_of [] :=
  ensure_workers_styles_distinct h0 ["api", "db"] [] (by decide)

/-- A container as the matcher sees it: its name, the two interactive-mode
config booleans (`Tty`, `OpenStdin`), and whether the status/config refresh
(`c.reload()` / attribute access) raises. -/
structure DContainer where
  name : String
  tty : Bool
  openStdin : Bool
  reloadFails : Bool
deriving DecidableEq, Repr

/-- Embeds `is_tty_container`: refresh the container and report `Tty or OpenStdin`;
any exception during the refresh yields `False` (classified not interactive). -/
def is_tty_container (c : DContainer) : Bool :=
  if c.reloadFails then false else (c.tty || c.openStdin)

/-- Embeds `name.lower()` at the character level. -/
def lower_chars (s : String) : List Char :=
  s.data.map Char.toLower

/-- Python's substring test `needle in hay` on character lists: some suffix of
`hay` starts with `needle` (the empty needle is contained in everything). -/
def py_contains (needle : List Char) : List Char → Bool
  | [] => needle.isEmpty
  | c :: rest => needle.isPrefixOf (c :: rest) || py_contains needle rest

/-- Embeds `find_matching_containers`: list all containers, keep those whose name
matches (exact equality, or case-insensitive containment of the pattern),
then unless `include_tty` drop the ones classified interactive. -/
def find_matching_containers (all_containers : List DContainer) (pattern : String)
    (exact : Bool) (include_tty : Bool) : List DContainer :=
  let found :=
    if exact then all_containers.filter (fun c => c.name == pattern)
    else all_containers.filter
      (fun c => py_contains (lower_chars pattern) (lower_chars c.name))
  if include_tty then found else found.filter (fun c => !is_tty_container c)

/-- Claim C8: a candidate whose status/config refresh fails is classified not
interactive, hence it stays in the match result even when interactive
containers are excluded (`include_tty = false`), provided its name matches. -/
theorem tty_check_failure_included (all_containers : List DContainer) (c : DContainer)
    (pattern : String) (exact : Bool)
    (hc : c ∈ all_containers) (hfail : c.reloadFails = true)
    (hmatch : (if exact then c.name == pattern
               else py_contains (lower_chars pattern) (lower_chars c.name)) = true) :
    is_tty_container c = false ∧
      c ∈ find_matching_containers all_containers pattern exact false := by
  have htty : is_tty_container c = false := by simp [is_tty_container, hfail]
  refine ⟨htty, ?_⟩
  unfold find_matching_containers
  cases exact with
  | true =>
    simp only [if_pos, if_true, if_false, Bool.false_eq_true]
    apply List.mem_filter.mpr
    exact ⟨List.mem_filter.mpr ⟨hc, by simpa using hmatch⟩, by simp [htty]⟩
  | false =>
    simp only [if_neg, if_true, if_false, Bool.false_eq_true]
    apply List.mem_filter.mpr
    exact ⟨List.mem_filter.mpr ⟨hc, by simpa using hmatch⟩, by simp [htty]⟩

/-- Witness for C8: a TTY-enabled container whose refresh fails, matched by a
substring of its name, with interactive containers excluded. -/
theorem tty_check_failure_included_witness :
    is_tty_container ⟨"shell", true, false, true⟩ = false ∧
      (⟨"shell", true, false, true⟩ : DContainer) ∈
        find_matching_containers [⟨"shell", true, false, true⟩] "SHE" false false :=
  tty_check_failure_included [⟨"shell", true, false, true⟩]
    ⟨"shell", true, false, true⟩ "SHE" false (by decide) (by decide) (by decide)

/-- Claim C10: in substring mode the empty pattern matches every listed
container — `find_matching_containers` with pattern `""` and `exact = false`
returns the whole listing, subject only to the interactive-exclusion filter,
because containment of the empty string always holds. -/
theorem empty_pattern_matches_all (all_containers : List DContainer)
    (include_tty : Bool) :
    find_matching_containers all_containers "" false include_tty =
      (if include_tty then all_containers
       else all_containers.filter (fun c => !is_tty_container c)) := by
  unfold find_matching_containers
  have hall : ∀ c : DContainer,
      py_contains (lower_chars "") (lower_chars c.name) = true := by
    intro c
    show py_contains [] (lower_chars c.name) = true
    cases lower_chars c.name with
    | nil => rfl
    | cons a l => rfl
  simp only [if_neg, Bool.false_eq_true, if_false]
  rw [List.filter_eq_self.mpr (fun c _ => hall c)]

end Docktail
